import Mathlib

/-!
Verification of the `ragcourse` crawl-and-index engine.

Text handled by the Python helpers is embedded as `List Char` (Python `len`
counts code points, and `str.split(sep)` keeps empty pieces, exactly like the
`splitOnChar` function below).  The sqlite-backed article store is embedded as
an explicit state record, and the external collaborators (HTTP fetching and the
LLM) are abstracted into an environment record of pure functions.
-/

namespace RagCourse

/-- Python `text.split(sep)` for a single-character separator: consecutive
separators produce empty pieces and the result is never empty. -/
def splitOnChar (sep : Char) : List Char → List (List Char)
  | [] => [[]]
  | c :: cs =>
    if c = sep then
      [] :: splitOnChar sep cs
    else
      match splitOnChar sep cs with
      | [] => [[c]]
      | l :: ls => (c :: l) :: ls

/-- Python `sep.join(pieces)` for a single-character separator. -/
def joinWith (sep : Char) : List (List Char) → List Char
  | [] => []
  | [l] => l
  | l :: l' :: ls => l ++ sep :: joinWith sep (l' :: ls)

theorem splitOnChar_ne_nil (sep : Char) (s : List Char) : splitOnChar sep s ≠ [] := by
  match s with
  | [] => simp [splitOnChar]
  | c :: cs =>
    simp only [splitOnChar]
    split
    · simp
    · split
      · simp
      · simp

theorem joinWith_cons (sep : Char) (x : List Char) (xs : List (List Char)) (h : xs ≠ []) :
    joinWith sep (x :: xs) = x ++ sep :: joinWith sep xs := by
  match xs with
  | [] => exact absurd rfl h
  | y :: ys => rfl

theorem joinWith_splitOnChar (sep : Char) (s : List Char) :
    joinWith sep (splitOnChar sep s) = s := by
  induction s with
  | nil => rfl
  | cons c cs ih =>
    simp only [splitOnChar]
    by_cases hc : c = sep
    · rw [if_pos hc, joinWith_cons sep [] _ (splitOnChar_ne_nil sep cs), ih, hc]
      rfl
    · rw [if_neg hc]
      cases hsp : splitOnChar sep cs with
      | nil => exact absurd hsp (splitOnChar_ne_nil sep cs)
      | cons l ls =>
        cases ls with
        | nil =>
          simp only [joinWith]
          rw [hsp] at ih
          simp only [joinWith] at ih
          rw [ih]
        | cons l' ls' =>
          rw [hsp] at ih
          simp only [joinWith] at ih ⊢
          simp only [List.cons_append]
          rw [ih]

/-- The accumulator loop of `text_split` from the source: `rest` is the list of
still-unprocessed lines, `cur` the chunk under construction (`tempList[-1]`),
and `wordCounter` the accumulated line length of `cur` (newline separators are
not counted, exactly as in the source). -/
def textSplitLoop (sizeLimit : Nat) : List (List Char) → List Char → Nat → List (List Char)
  | [], cur, _ => [cur]
  | l :: rest, cur, wordCounter =>
    if wordCounter + l.length < sizeLimit then
      textSplitLoop sizeLimit rest (cur ++ '\n' :: l) (wordCounter + l.length)
    else
      cur :: textSplitLoop sizeLimit rest l l.length

/-- `text_split` from the source: split the input on line breaks and greedily
repack consecutive lines into chunks, starting a new chunk when the accumulated
line length would reach `sizeLimit`. -/
def text_split (text : List Char) (sizeLimit : Nat) : List (List Char) :=
  match splitOnChar '\n' text with
  | [] => []
  | first :: rest => textSplitLoop sizeLimit rest first first.length

theorem textSplitLoop_ne_nil (sizeLimit : Nat) (rest : List (List Char)) (cur : List Char)
    (wc : Nat) : textSplitLoop sizeLimit rest cur wc ≠ [] := by
  match rest with
  | [] => simp [textSplitLoop]
  | l :: rest =>
    simp only [textSplitLoop]
    split
    · exact textSplitLoop_ne_nil sizeLimit rest _ _
    · simp

theorem joinWith_glue (sep : Char) (a b : List Char) (rest : List (List Char)) :
    joinWith sep ((a ++ sep :: b) :: rest) = joinWith sep (a :: b :: rest) := by
  cases rest with
  | nil => rfl
  | cons r rs => simp [joinWith, List.append_assoc]

theorem joinWith_textSplitLoop (sizeLimit : Nat) (rest : List (List Char)) (cur : List Char)
    (wc : Nat) :
    joinWith '\n' (textSplitLoop sizeLimit rest cur wc) = joinWith '\n' (cur :: rest) := by
  induction rest generalizing cur wc with
  | nil => rfl
  | cons l rest ih =>
    simp only [textSplitLoop]
    split
    · rw [ih, joinWith_glue]
    · rw [joinWith_cons '\n' cur _ (textSplitLoop_ne_nil sizeLimit rest l l.length), ih,
        joinWith_cons '\n' cur (l :: rest) (by simp)]

/-- Claim C10: joining the chunks of `text_split` with a single newline restores
the input text exactly — nothing is lost, duplicated, or reordered. -/
theorem text_split_join_roundtrip (text : List Char) (sizeLimit : Nat) :
    joinWith '\n' (text_split text sizeLimit) = text := by
  unfold text_split
  cases hsp : splitOnChar '\n' text with
  | nil => exact absurd hsp (splitOnChar_ne_nil '\n' text)
  | cons first rest =>
    rw [joinWith_textSplitLoop, ← hsp, joinWith_splitOnChar]

/-- Total line length of a group of lines: the quantity that `wordCounter`
tracks in `text_split` (newline separators are not counted). -/
def sumLens (ls : List (List Char)) : Nat := (ls.map List.length).sum

/-- Mirror of `textSplitLoop` that keeps each chunk as its list of lines
instead of as the already-joined string. -/
def chunkGroups (sizeLimit : Nat) :
    List (List Char) → List (List Char) → Nat → List (List (List Char))
  | [], cur, _ => [cur]
  | l :: rest, cur, wc =>
    if wc + l.length < sizeLimit then
      chunkGroups sizeLimit rest (cur ++ [l]) (wc + l.length)
    else
      cur :: chunkGroups sizeLimit rest [l] l.length

theorem joinWith_append_single (sep : Char) (g : List (List Char)) (l : List Char)
    (h : g ≠ []) : joinWith sep (g ++ [l]) = joinWith sep g ++ sep :: l := by
  induction g with
  | nil => exact absurd rfl h
  | cons x g ih =>
    cases g with
    | nil => rfl
    | cons y g =>
      rw [show (x :: y :: g) ++ [l] = x :: ((y :: g) ++ [l]) from rfl,
        joinWith_cons sep x _ (by simp), ih (by simp),
        joinWith_cons sep x (y :: g) (by simp)]
      simp [List.append_assoc]

theorem textSplitLoop_eq_chunkGroups (sizeLimit : Nat) (rest : List (List Char))
    (cur : List (List Char)) (wc : Nat) (h : cur ≠ []) :
    textSplitLoop sizeLimit rest (joinWith '\n' cur) wc =
      (chunkGroups sizeLimit rest cur wc).map (joinWith '\n') := by
  induction rest generalizing cur wc with
  | nil => rfl
  | cons l rest ih =>
    simp only [textSplitLoop, chunkGroups]
    split
    · rw [← joinWith_append_single '\n' cur l h, ih (cur ++ [l]) _ (by simp)]
    · rw [List.map_cons]
      have hl : l = joinWith '\n' [l] := rfl
      rw [show textSplitLoop sizeLimit rest l l.length
            = textSplitLoop sizeLimit rest (joinWith '\n' [l]) l.length from rfl,
        ih [l] _ (by simp)]

theorem chunkGroups_bound (sizeLimit : Nat) (rest : List (List Char))
    (cur : List (List Char)) (wc : Nat) (hwc : wc = sumLens cur)
    (hcur : 2 ≤ cur.length → sumLens cur < sizeLimit) :
    ∀ g ∈ chunkGroups sizeLimit rest cur wc, 2 ≤ g.length → sumLens g < sizeLimit := by
  induction rest generalizing cur wc with
  | nil =>
    intro g hg
    simp only [chunkGroups, List.mem_singleton] at hg
    subst hg
    exact hcur
  | cons l rest ih =>
    intro g hg
    simp only [chunkGroups] at hg
    split at hg
    · refine ih (cur ++ [l]) _ ?_ ?_ g hg
      · simp [sumLens, hwc]
      · intro _
        have : wc + l.length < sizeLimit := by assumption
        simp only [sumLens, List.map_append, List.sum_append, List.map_cons,
          List.map_nil, List.sum_cons, List.sum_nil] at *
        omega
    · rcases List.mem_cons.mp hg with hgc | hgr
      · subst hgc
        exact hcur
      · refine ih [l] _ (by simp [sumLens]) (by simp) g hgr

theorem chunkGroups_mem_pred (sizeLimit : Nat) (P : List Char → Prop)
    (rest : List (List Char)) (cur : List (List Char)) (wc : Nat)
    (hcur : ∀ x ∈ cur, P x) (hrest : ∀ x ∈ rest, P x) :
    ∀ g ∈ chunkGroups sizeLimit rest cur wc, ∀ x ∈ g, P x := by
  induction rest generalizing cur wc with
  | nil =>
    intro g hg
    simp only [chunkGroups, List.mem_singleton] at hg
    subst hg
    exact hcur
  | cons l rest ih =>
    intro g hg
    simp only [chunkGroups] at hg
    split at hg
    · refine ih (cur ++ [l]) _ ?_ (fun x hx => hrest x (List.mem_cons_of_mem _ hx)) g hg
      intro x hx
      rcases List.mem_append.mp hx with h1 | h1
      · exact hcur x h1
      · simp only [List.mem_singleton] at h1
        exact h1 ▸ hrest l (List.mem_cons_self _ _)
    · rcases List.mem_cons.mp hg with hgc | hgr
      · subst hgc
        exact hcur
      · refine ih [l] _ ?_ (fun x hx => hrest x (List.mem_cons_of_mem _ hx)) g hgr
        intro x hx
        simp only [List.mem_singleton] at hx
        exact hx ▸ hrest l (List.mem_cons_self _ _)

theorem chunkGroups_ne_nil (sizeLimit : Nat) (rest : List (List Char))
    (cur : List (List Char)) (wc : Nat) (h : cur ≠ []) :
    ∀ g ∈ chunkGroups sizeLimit rest cur wc, g ≠ [] := by
  induction rest generalizing cur wc with
  | nil =>
    intro g hg
    simp only [chunkGroups, List.mem_singleton] at hg
    exact hg ▸ h
  | cons l rest ih =>
    intro g hg
    simp only [chunkGroups] at hg
    split at hg
    · exact ih (cur ++ [l]) _ (by simp) g hg
    · rcases List.mem_cons.mp hg with hgc | hgr
      · exact hgc ▸ h
      · exact ih [l] _ (by simp) g hgr

theorem chunkGroups_flatten (sizeLimit : Nat) (rest : List (List Char))
    (cur : List (List Char)) (wc : Nat) :
    (chunkGroups sizeLimit rest cur wc).flatten = cur ++ rest := by
  induction rest generalizing cur wc with
  | nil => simp [chunkGroups]
  | cons l rest ih =>
    simp only [chunkGroups]
    split
    · rw [ih]
      simp
    · simp only [List.flatten_cons]
      rw [ih]
      simp

theorem mem_splitOnChar_not_mem (sep : Char) (s : List Char) :
    ∀ x ∈ splitOnChar sep s, sep ∉ x := by
  induction s with
  | nil =>
    intro x hx
    simp only [splitOnChar, List.mem_singleton] at hx
    simp [hx]
  | cons c cs ih =>
    intro x hx
    simp only [splitOnChar] at hx
    by_cases hc : c = sep
    · rw [if_pos hc] at hx
      rcases List.mem_cons.mp hx with h1 | h1
      · simp [h1]
      · exact ih x h1
    · rw [if_neg hc] at hx
      cases hsp : splitOnChar sep cs with
      | nil => exact absurd hsp (splitOnChar_ne_nil sep cs)
      | cons l ls =>
        rw [hsp] at hx
        rcases List.mem_cons.mp hx with h1 | h1
        · subst h1
          intro hmem
          rcases List.mem_cons.mp hmem with h2 | h2
          · exact hc h2.symm
          · exact ih l (hsp ▸ List.mem_cons_self _ _) h2
        · exact ih x (hsp ▸ List.mem_cons_of_mem _ h1)

theorem splitOnChar_of_not_mem (sep : Char) (s : List Char) (h : sep ∉ s) :
    splitOnChar sep s = [s] := by
  induction s with
  | nil => rfl
  | cons c cs ih =>
    simp only [splitOnChar]
    rw [if_neg (by intro hc; exact h (hc ▸ List.mem_cons_self _ _)),
      ih (fun hm => h (List.mem_cons_of_mem _ hm))]

theorem splitOnChar_append_cons (sep : Char) (a r : List Char) (h : sep ∉ a) :
    splitOnChar sep (a ++ sep :: r) = a :: splitOnChar sep r := by
  induction a with
  | nil => simp [splitOnChar]
  | cons c a ih =>
    have hc : ¬ c = sep := fun hc => h (hc ▸ List.mem_cons_self _ _)
    have ih' := ih (fun hm => h (List.mem_cons_of_mem _ hm))
    show splitOnChar sep (c :: (a ++ sep :: r)) = (c :: a) :: splitOnChar sep r
    simp only [splitOnChar, if_neg hc]
    rw [ih']

theorem splitOnChar_joinWith (sep : Char) (g : List (List Char)) (hne : g ≠ [])
    (hfree : ∀ x ∈ g, sep ∉ x) : splitOnChar sep (joinWith sep g) = g := by
  induction g with
  | nil => exact absurd rfl hne
  | cons x g ih =>
    cases g with
    | nil => exact splitOnChar_of_not_mem sep x (hfree x (List.mem_cons_self _ _))
    | cons y g =>
      simp only [joinWith]
      rw [splitOnChar_append_cons sep x _ (hfree x (List.mem_cons_self _ _)),
        ih (by simp) (fun z hz => hfree z (List.mem_cons_of_mem _ hz))]

theorem length_le_sumLens (g : List (List Char)) (x : List Char) (hx : x ∈ g) :
    x.length ≤ sumLens g := by
  induction g with
  | nil => cases hx
  | cons y g ih =>
    rcases List.mem_cons.mp hx with h1 | h1
    · simp [sumLens, h1]
    · have := ih h1
      simp only [sumLens, List.map_cons, List.sum_cons] at *
      omega

theorem text_split_eq_chunkGroups (text : List Char) (sizeLimit : Nat) (first : List Char)
    (rest : List (List Char)) (hsp : splitOnChar '\n' text = first :: rest) :
    text_split text sizeLimit =
      (chunkGroups sizeLimit rest [first] first.length).map (joinWith '\n') := by
  unfold text_split
  rw [hsp]
  rw [show first = joinWith '\n' [first] from rfl] at *
  exact textSplitLoop_eq_chunkGroups sizeLimit rest [first] _ (by simp)

/-- Claim C6, counterexample: on the text `"A\nB\nC"` with `sizeLimit = 4`,
every line is shorter than the limit, yet `text_split` returns the whole text
as a single 5-character chunk, so the chunk's character count does not stay
under `sizeLimit`. -/
theorem text_split_under_limit_counterexample :
    text_split ['A', '\n', 'B', '\n', 'C'] 4 = [['A', '\n', 'B', '\n', 'C']] ∧
      (∀ l ∈ splitOnChar '\n' ['A', '\n', 'B', '\n', 'C'], l.length < 4) ∧
      ¬ (['A', '\n', 'B', '\n', 'C'] : List Char).length < 4 := by
  decide

/-- Claim C6, amended: every chunk returned by `text_split` that contains at
least two lines has total line-character count (excluding the inserted newline
separators) strictly under `sizeLimit`; greedy packing starts a new chunk when
adding the next line's characters would reach the limit, and a single line
whose length is at least `sizeLimit` still forms its own chunk. -/
theorem text_split_chunk_bounds (text : List Char) (sizeLimit : Nat) :
    (∀ chunk ∈ text_split text sizeLimit,
      2 ≤ (splitOnChar '\n' chunk).length →
        sumLens (splitOnChar '\n' chunk) < sizeLimit) ∧
    (∀ line ∈ splitOnChar '\n' text,
      sizeLimit ≤ line.length → line ∈ text_split text sizeLimit) := by
  cases hsp : splitOnChar '\n' text with
  | nil => exact absurd hsp (splitOnChar_ne_nil '\n' text)
  | cons first rest =>
    have heq := text_split_eq_chunkGroups text sizeLimit first rest hsp
    have hfree : ∀ x ∈ (first :: rest), '\n' ∉ x := by
      intro x hx
      exact mem_splitOnChar_not_mem '\n' text x (hsp ▸ hx)
    have hcurfree : ∀ x ∈ [first], '\n' ∉ x := by
      intro x hx
      simp only [List.mem_singleton] at hx
      exact hx ▸ hfree first (List.mem_cons_self _ _)
    have hrestfree : ∀ x ∈ rest, '\n' ∉ x :=
      fun x hx => hfree x (List.mem_cons_of_mem _ hx)
    have hgfree := chunkGroups_mem_pred sizeLimit (fun x => '\n' ∉ x) rest [first]
      first.length hcurfree hrestfree
    have hgne := chunkGroups_ne_nil sizeLimit rest [first] first.length (by simp)
    have hgbound := chunkGroups_bound sizeLimit rest [first] first.length
      (by simp [sumLens]) (by simp)
    constructor
    · intro chunk hchunk
      rw [heq] at hchunk
      rcases List.mem_map.mp hchunk with ⟨g, hg, hjoin⟩
      have hsplit : splitOnChar '\n' chunk = g := by
        rw [← hjoin]
        exact splitOnChar_joinWith '\n' g (hgne g hg) (hgfree g hg)
      rw [hsplit]
      exact hgbound g hg
    · intro line hline hlen
      have hmem : line ∈ [first] ++ rest := by simpa using hline
      rw [← chunkGroups_flatten sizeLimit rest [first] first.length] at hmem
      rcases List.mem_flatten.mp hmem with ⟨g, hg, hlg⟩
      have hsingle : g = [line] := by
        by_cases h2 : 2 ≤ g.length
        · have h3 := hgbound g hg h2
          have h4 := length_le_sumLens g line hlg
          omega
        · cases g with
          | nil => cases hlg
          | cons x xs =>
            cases xs with
            | nil =>
              simp only [List.mem_singleton] at hlg
              rw [hlg]
            | cons y ys => simp at h2
      rw [heq]
      refine List.mem_map.mpr ⟨g, hg, ?_⟩
      rw [hsingle]
      rfl

/-- Witness for `text_split_chunk_bounds` at concrete inputs: the two-line text
`"A\nB"` with limit 4 packs into one chunk of line-length 2, and the long first
line of `"CCCCC\nA"` with limit 4 is returned as its own chunk. -/
theorem text_split_chunk_bounds_witness :
    sumLens (splitOnChar '\n' ['A', '\n', 'B']) < 4 ∧
      ['C', 'C', 'C', 'C', 'C'] ∈
        text_split ['C', 'C', 'C', 'C', 'C', '\n', 'A'] 4 :=
  ⟨(text_split_chunk_bounds ['A', '\n', 'B'] 4).1 ['A', '\n', 'B'] (by decide) (by decide),
    (text_split_chunk_bounds ['C', 'C', 'C', 'C', 'C', '\n', 'A'] 4).2
      ['C', 'C', 'C', 'C', 'C'] (by decide) (by decide)⟩

/-- The retry loop of `extract_keywords` when no deterministic seed is pinned:
`responses i` is the text returned by the i-th LLM invocation (the LLM is
abstracted into this response stream) and `fuel` bounds the number of retries,
which the source leaves unbounded.  The token count checked is
`len(key.split(" "))`, i.e. the number of pieces after splitting on a single
blank. -/
def extractKeywordsLoop (responses : Nat → List Char) : Nat → Nat → Option (List Char)
  | 0, _ => none
  | fuel + 1, i =>
    if (splitOnChar ' ' (responses i)).length < 10 then some (responses i)
    else extractKeywordsLoop responses fuel (i + 1)

/-- `extract_keywords` from the source: the first LLM response is returned
unchecked when a seed is pinned; otherwise the LLM is re-invoked until a
response has fewer than 10 blank-separated pieces. -/
def extract_keywords (responses : Nat → List Char) (seedPinned : Bool) (fuel : Nat) :
    Option (List Char) :=
  if seedPinned then some (responses 0)
  else extractKeywordsLoop responses fuel 0

theorem extractKeywordsLoop_lt (responses : Nat → List Char) (fuel i : Nat)
    (k : List Char) (hk : extractKeywordsLoop responses fuel i = some k) :
    (splitOnChar ' ' k).length < 10 := by
  induction fuel generalizing i with
  | zero => simp [extractKeywordsLoop] at hk
  | succ fuel ih =>
    simp only [extractKeywordsLoop] at hk
    split at hk
    · cases hk
      assumption
    · exact ih (i + 1) hk

/-- Claim C7: without a pinned seed, whenever `extract_keywords` returns, the
returned keyword string has fewer than 10 space-separated tokens (the LLM is
re-invoked until this holds); with a pinned seed, the first response is
returned without the ceiling being enforced. -/
theorem extract_keywords_token_ceiling (responses : Nat → List Char) (fuel : Nat) :
    (∀ k, extract_keywords responses false fuel = some k →
      (splitOnChar ' ' k).length < 10) ∧
    extract_keywords responses true fuel = some (responses 0) := by
  refine ⟨fun k hk => ?_, rfl⟩
  simp only [extract_keywords, Bool.false_eq_true, if_false] at hk
  exact extractKeywordsLoop_lt responses fuel 0 k hk

/-- Concrete response stream for the `extract_keywords` witness: the first LLM
answer has 10 blank-separated tokens, the retry has 2. -/
def keywordResponses : Nat → List Char :=
  fun i => if i = 0 then ("a b c d e f g h i j").toList else ("a b").toList

/-- Witness for `extract_keywords_token_ceiling`: with the concrete response
stream the unseeded call returns the 2-token retry, which is below the
ceiling, and the seeded call returns the first (too long) response as is. -/
theorem extract_keywords_token_ceiling_witness :
    (splitOnChar ' ' (("a b").toList)).length < 10 ∧
      extract_keywords keywordResponses true 1 = some (keywordResponses 0) :=
  ⟨(extract_keywords_token_ceiling keywordResponses 2).1 (("a b").toList) (by decide),
    (extract_keywords_token_ceiling keywordResponses 1).2⟩

/-- One row of the FTS5 `articles` table. -/
structure Row where
  title : String
  content : String
  url : String
  publish_date : String
  crawl_date : String
  summary : String
  depth : Int
deriving DecidableEq

/-- Environment for `find_articles`: the sqlite FTS5 index and the keyword
extractor are abstracted into pure functions.  `queryOk` says whether FTS5
accepts the MATCH expression (it raises `OperationalError` otherwise);
`relevance` is the `bm25(articles)` score of each row for an accepted query
(`none` when the row does not match); `extract` is the keyword string produced
by the i-th recovery invocation of `extract_keywords` on the caller-supplied
`keywords_text`. -/
structure QueryEnv where
  queryOk : String → Bool
  relevance : String → Row → Option ℚ
  extract : String → Nat → String

/-- Insertion into a list kept sorted by ascending score. -/
def insertByScore (p : Row × ℚ) : List (Row × ℚ) → List (Row × ℚ)
  | [] => [p]
  | q :: qs => if p.2 ≤ q.2 then p :: q :: qs else q :: insertByScore p qs

/-- `ORDER BY relevance_score ASC`. -/
def sortByScore : List (Row × ℚ) → List (Row × ℚ)
  | [] => []
  | p :: ps => insertByScore p (sortByScore ps)

/-- The SELECT executed by `find_articles`: keep the rows matched by the
query together with their `bm25(articles)` relevance score, order by that
score ascending, and apply the LIMIT.  No other quantity enters the ordering:
in particular the `timebias_alpha` parameter of `find_articles` is not used
anywhere in the source. -/
def execSearch (rows : List Row) (rel : Row → Option ℚ) (limit : Nat) :
    List (Row × ℚ) :=
  (sortByScore (rows.filterMap (fun r => (rel r).map (fun s => (r, s))))).take limit

/-- The retry loop of `find_articles`: on an `OperationalError` the query is
replaced by a fresh keyword extraction from `keywords_text` (when supplied)
and the execute is retried; the source loops without bound, so `fuel` bounds
the retries and `none` marks exhaustion. -/
def findArticlesLoop (env : QueryEnv) (rows : List Row) (limit : Nat)
    (keywords_text : Option String) : Nat → String → Nat → Option (List (Row × ℚ))
  | 0, _, _ => none
  | fuel + 1, query, i =>
    if env.queryOk query then some (execSearch rows (env.relevance query) limit)
    else
      match keywords_text with
      | some kt => findArticlesLoop env rows limit keywords_text fuel (env.extract kt i) (i + 1)
      | none => findArticlesLoop env rows limit keywords_text fuel query (i + 1)

/-- `ArticleDB.find_articles` from the source. -/
def find_articles (env : QueryEnv) (rows : List Row) (fuel : Nat) (query : String)
    (limit : Nat) (keywords_text : Option String) : Option (List (Row × ℚ)) :=
  findArticlesLoop env rows limit keywords_text fuel query 0

theorem findArticlesLoop_accepted (env : QueryEnv) (rows : List Row) (limit : Nat)
    (kt : Option String) (fuel : Nat) (query : String) (i : Nat)
    (r : List (Row × ℚ)) (hr : findArticlesLoop env rows limit kt fuel query i = some r) :
    ∃ q', env.queryOk q' = true ∧ r = execSearch rows (env.relevance q') limit := by
  induction fuel generalizing query i with
  | zero => simp [findArticlesLoop] at hr
  | succ fuel ih =>
    simp only [findArticlesLoop] at hr
    split at hr
    · cases hr
      exact ⟨query, by assumption, rfl⟩
    · match kt, hr with
      | some t, hr => exact ih (env.extract t i) (i + 1) hr
      | none, hr => exact ih query (i + 1) hr

/-- Claim C8: a query the index rejects never surfaces as an error — the
results always come from a query the index accepted — and when the first
keyword extraction from the recovery text is accepted, `find_articles`
returns exactly the search results of that substituted query. -/
theorem find_articles_query_recovery (env : QueryEnv) (rows : List Row)
    (limit : Nat) (query : String) :
    (∀ fuel kt r, find_articles env rows fuel query limit kt = some r →
      ∃ q', env.queryOk q' = true ∧ r = execSearch rows (env.relevance q') limit) ∧
    (∀ fuel t, env.queryOk query = false → env.queryOk (env.extract t 0) = true →
      find_articles env rows (fuel + 2) query limit (some t) =
        some (execSearch rows (env.relevance (env.extract t 0)) limit)) := by
  constructor
  · intro fuel kt r hr
    exact findArticlesLoop_accepted env rows limit kt fuel query 0 r hr
  · intro fuel t hbad hgood
    simp [find_articles, findArticlesLoop, hbad, hgood]

/-- Environment for the `find_articles` witness: the initial query is
malformed, the recovery extraction is accepted, and no row matches. -/
def recoveryEnv : QueryEnv where
  queryOk := fun q => q = ("good")
  relevance := fun _ _ => none
  extract := fun _ _ => ("good")

/-- Witness for `find_articles_query_recovery`: with the malformed query
`"bad"` and recovery text supplied, the search is retried with the extracted
query `"good"` and returns its (empty) results instead of failing. -/
theorem find_articles_query_recovery_witness :
    (∃ q', recoveryEnv.queryOk q' = true ∧
      ([] : List (Row × ℚ)) = execSearch [] (recoveryEnv.relevance q') 5) ∧
    find_articles recoveryEnv [] 2 ("bad") 5 (some ("t")) =
      some (execSearch [] (recoveryEnv.relevance (recoveryEnv.extract ("t") 0)) 5) :=
  ⟨(find_articles_query_recovery recoveryEnv [] 5 ("bad")).1 2 (some ("t")) [] (by decide),
    (find_articles_query_recovery recoveryEnv [] 5 ("bad")).2 0 ("t") (by decide) (by decide)⟩

/-- Modelled from the spec: the combined time-biased score that the docstring
of `find_articles` promises as the final ranking,
`relevance * timebias_alpha / (daysSincePublish + timebias_alpha)`. -/
def combinedScore (relevance daysSincePublish timebias_alpha : ℚ) : ℚ :=
  relevance * timebias_alpha / (daysSincePublish + timebias_alpha)

/-- An article published 1000 days ago whose lexical score is slightly better
(more negative bm25) than that of the recent article. -/
def oldArticle : Row :=
  { title := ("old"), content := ("old words"), url := ("https://www.hmc.edu/old"),
    publish_date := ("2023-01-01"), crawl_date := ("2025-09-27"),
    summary := ("old summary"), depth := 0 }

/-- An article published 1 day ago with a similar lexical score. -/
def recentArticle : Row :=
  { title := ("recent"), content := ("recent words"), url := ("https://www.hmc.edu/new"),
    publish_date := ("2025-09-26"), crawl_date := ("2025-09-27"),
    summary := ("recent summary"), depth := 0 }

/-- Ranking environment for the C1 corpus: every query is accepted and the
bm25 scores of the two articles are `-11/10` (old) and `-1` (recent). -/
def rankEnv : QueryEnv where
  queryOk := fun _ => true
  relevance := fun _ r => if r.url = ("https://www.hmc.edu/old") then some (-11/10) else some (-1)
  extract := fun _ _ => ("")

/-- Claim C1, divergence: with `timebias_alpha = 1`, the combined score of the
docstring ranks the recent article (published 1 day ago) strictly before the
old one (published 1000 days ago), yet `find_articles` returns the old
article first: the implemented ORDER BY uses the bm25 relevance alone and
`timebias_alpha` never enters the ranking. -/
theorem find_articles_ignores_timebias :
    find_articles rankEnv [recentArticle, oldArticle] 1 ("q") 5 none =
      some [(oldArticle, -11/10), (recentArticle, -1)] ∧
    combinedScore (-1) 1 1 < combinedScore (-11/10) 1000 1 := by
  constructor
  · have h1 : ¬ ((-1 : ℚ) ≤ -11 / 10) := by norm_num
    simp [find_articles, findArticlesLoop, execSearch, rankEnv, oldArticle, recentArticle,
      sortByScore, insertByScore, h1]
  · norm_num [combinedScore]

/-- Structured page data returned by a successful `fetch_page_data`. -/
structure PageData where
  title : String
  publish_date : String
  crawl_date : String
  content : String
  links : List String

/-- Outcome of a call to `fetch_page_data`: a parsed page; `failed` when the
function returns `None` (request or HTTP-status or parse failure, all handled
inside it); or `raised msg` when an exception escapes it (its internal
handlers do not cover the DOM accessors). -/
inductive FetchResult
  | page (data : PageData)
  | failed
  | raised (msg : String)

/-- Environment of the crawler: the two external collaborators as pure
functions.  `summarize content = none` models `summarize_text` raising (the
LLM call failing); `add_url` catches that failure locally. -/
structure CrawlEnv where
  fetch : String → FetchResult
  summarize : String → Option String

/-- The crawler's view of the sqlite store, plus an instrumentation log of
every `fetch_page_data` call (used to state that the domain gate performs no
fetch). -/
structure St where
  rows : List Row
  fetched : List String
deriving DecidableEq

def logFetch (s : St) (url : String) : St :=
  { s with fetched := s.fetched ++ [url] }

/-- `INSERT INTO articles ...`: a new row is appended to the table. -/
def insertRow (s : St) (r : Row) : St :=
  { s with rows := s.rows ++ [r] }

/-- `UPDATE articles SET depth = ? WHERE rowid = ?` where the rowid is the one
of the first row matching the url (the `fetchone` result). -/
def updateDepthFirst (url : String) (d : Int) : List Row → List Row
  | [] => []
  | r :: rs =>
    if r.url == url then { r with depth := d } :: rs
    else r :: updateDepthFirst url d rs

/-- Contiguous-substring occurrence over character lists. -/
def containsSub (needle : List Char) : List Char → Bool
  | [] => needle.isEmpty
  | c :: cs => needle.isPrefixOf (c :: cs) || containsSub needle cs

/-- Python substring containment, `needle in hay`. -/
def strContains (hay needle : String) : Bool :=
  containsSub needle.toList hay.toList

/-- The allowed-domain marker hard-coded in `add_url`. -/
def hmcDomain : String := ("hmc.edu")

/-- Does the store hold a row for this url (`SELECT count(*) ... WHERE url=?`
compared against 0)? -/
def hasRow (s : St) (url : String) : Bool :=
  s.rows.any (fun r => r.url == url)

/-- `_catch_errors` from the source: run the body and swallow any error it
raises, leaving the database as it was at the point of the raise. -/
def catch_errors (f : St → Except (String × St) St) (s : St) : St :=
  match f s with
  | .ok t => t
  | .error (_, t) => t

/-- The body of `ArticleDB.add_url` before the `_catch_errors` decorator is
applied.  `fuel` bounds the recursion depth (the source recursion is bounded
only by the finiteness of the crawled site; exhausted fuel leaves the state
unchanged).  Recursive calls on discovered links go through the decorated
function, exactly as `self.add_url` does in the source. -/
def addUrlBody (env : CrawlEnv) (fuel : Nat) (url : String) (recursive_depth : Int)
    (allow_dupes : Bool) (s : St) : Except (String × St) St :=
  match fuel with
  | 0 => .ok s
  | fuel + 1 =>
    if strContains url hmcDomain = false then .ok s
    else
      match (if allow_dupes then none else s.rows.find? (fun r => r.url == url)) with
      | some row =>
        if recursive_depth > row.depth then
          let s1 := logFetch s url
          match env.fetch url with
          | .raised msg => .error (msg, s1)
          | .failed => .ok s1
          | .page data =>
            let s2 := data.links.foldl
              (fun st l =>
                catch_errors (fun s0 => addUrlBody env fuel l (recursive_depth - 1) false s0) st)
              s1
            .ok { s2 with rows := updateDepthFirst url recursive_depth s2.rows }
        else .ok s
      | none =>
        let s1 := logFetch s url
        match env.fetch url with
        | .raised msg => .error (msg, s1)
        | .failed => .ok s1
        | .page data =>
          if data.content.length > 30000 then
            if recursive_depth > 0 then
              .ok (data.links.foldl
                (fun st l =>
                  catch_errors (fun s0 => addUrlBody env fuel l (recursive_depth - 1) false s0) st)
                s1)
            else .ok s1
          else
            match env.summarize data.content with
            | none =>
              if recursive_depth > 0 then
                .ok (data.links.foldl
                  (fun st l =>
                    catch_errors (fun s0 => addUrlBody env fuel l (recursive_depth - 1) false s0) st)
                  s1)
              else .ok s1
            | some summary =>
              let s2 := insertRow s1
                { title := data.title, content := data.content, url := url,
                  publish_date := data.publish_date, crawl_date := data.crawl_date,
                  summary := summary, depth := recursive_depth }
              if recursive_depth > 0 then
                .ok (data.links.foldl
                  (fun st l =>
                    catch_errors (fun s0 => addUrlBody env fuel l (recursive_depth - 1) false s0) st)
                  s2)
              else .ok s2

/-- `ArticleDB.add_url` as seen by callers: the body wrapped in
`_catch_errors`. -/
def add_url (env : CrawlEnv) (fuel : Nat) (url : String) (recursive_depth : Int)
    (allow_dupes : Bool) (s : St) : St :=
  catch_errors (addUrlBody env fuel url recursive_depth allow_dupes) s

/-- The fan-out of `add_url` over the discovered links: recursive calls with
the budget already decremented by the caller. -/
def crawlLinks (env : CrawlEnv) (fuel : Nat) (d : Int) (links : List String) (s : St) : St :=
  links.foldl (fun st l => add_url env fuel l d false st) s

theorem add_url_zero (env : CrawlEnv) (u : String) (d : Int) (ad : Bool) (s : St) :
    add_url env 0 u d ad s = s := rfl

theorem add_url_out_of_domain (env : CrawlEnv) (fuel : Nat) (url : String) (d : Int)
    (ad : Bool) (s : St) (h : strContains url hmcDomain = false) :
    add_url env fuel url d ad s = s := by
  cases fuel with
  | zero => rfl
  | succ fuel => simp [add_url, addUrlBody, catch_errors, h]

theorem add_url_dupe_stale (env : CrawlEnv) (fuel : Nat) (url : String) (d : Int) (s : St)
    (row : Row) (hfind : s.rows.find? (fun r => r.url == url) = some row)
    (hd : ¬ d > row.depth) :
    add_url env (fuel + 1) url d false s = s := by
  cases hdom : strContains url hmcDomain with
  | false => exact add_url_out_of_domain env (fuel + 1) url d false s hdom
  | true => simp [add_url, addUrlBody, catch_errors, hdom, hfind, hd]

theorem crawlLinks_body_eq (env : CrawlEnv) (fuel : Nat) (d : Int) (links : List String)
    (s : St) :
    links.foldl (fun st l => catch_errors (fun s0 => addUrlBody env fuel l d false s0) st) s =
      crawlLinks env fuel d links s := rfl

theorem crawlLinks_match_eq (env : CrawlEnv) (fuel : Nat) (d : Int) (links : List String)
    (s : St) :
    links.foldl
      (fun st l =>
        match addUrlBody env fuel l d false st with
        | Except.ok t => t
        | Except.error (_, t) => t) s =
      crawlLinks env fuel d links s := rfl

theorem add_url_dupe_upgrade (env : CrawlEnv) (fuel : Nat) (url : String) (d : Int) (s : St)
    (row : Row) (data : PageData) (hdom : strContains url hmcDomain = true)
    (hfind : s.rows.find? (fun r => r.url == url) = some row)
    (hd : d > row.depth) (hfetch : env.fetch url = FetchResult.page data) :
    add_url env (fuel + 1) url d false s =
      { crawlLinks env fuel (d - 1) data.links (logFetch s url) with
        rows := updateDepthFirst url d
          (crawlLinks env fuel (d - 1) data.links (logFetch s url)).rows } := by
  simp [add_url, addUrlBody, catch_errors, hdom, hfind, hd, hfetch, crawlLinks_body_eq,
    crawlLinks_match_eq]
  try exact ⟨rfl, rfl⟩

theorem add_url_dupe_upgrade_nofetch (env : CrawlEnv) (fuel : Nat) (url : String) (d : Int)
    (s : St) (row : Row) (hdom : strContains url hmcDomain = true)
    (hfind : s.rows.find? (fun r => r.url == url) = some row)
    (hd : d > row.depth)
    (hfetch : env.fetch url = FetchResult.failed ∨ ∃ m, env.fetch url = FetchResult.raised m) :
    add_url env (fuel + 1) url d false s = logFetch s url := by
  rcases hfetch with hfetch | ⟨m, hfetch⟩ <;>
    simp [add_url, addUrlBody, catch_errors, hdom, hfind, hd, hfetch]

theorem add_url_main_nofetch (env : CrawlEnv) (fuel : Nat) (url : String) (d : Int)
    (ad : Bool) (s : St) (hdom : strContains url hmcDomain = true)
    (hmain : (if ad then none else s.rows.find? (fun r => r.url == url)) = none)
    (hfetch : env.fetch url = FetchResult.failed ∨ ∃ m, env.fetch url = FetchResult.raised m) :
    add_url env (fuel + 1) url d ad s = logFetch s url := by
  rcases hfetch with hfetch | ⟨m, hfetch⟩ <;>
    simp [add_url, addUrlBody, catch_errors, hdom, hmain, hfetch]

theorem add_url_size_gate_eq (env : CrawlEnv) (fuel : Nat) (url : String) (d : Int)
    (ad : Bool) (s : St) (data : PageData) (hdom : strContains url hmcDomain = true)
    (hmain : (if ad then none else s.rows.find? (fun r => r.url == url)) = none)
    (hfetch : env.fetch url = FetchResult.page data)
    (hsize : data.content.length > 30000) :
    add_url env (fuel + 1) url d ad s =
      if 0 < d then crawlLinks env fuel (d - 1) data.links (logFetch s url)
      else logFetch s url := by
  by_cases h0 : 0 < d <;>
    simp [add_url, addUrlBody, catch_errors, hdom, hmain, hfetch, hsize, h0,
      crawlLinks_body_eq, crawlLinks_match_eq]

theorem add_url_sumfail_eq (env : CrawlEnv) (fuel : Nat) (url : String) (d : Int)
    (ad : Bool) (s : St) (data : PageData) (hdom : strContains url hmcDomain = true)
    (hmain : (if ad then none else s.rows.find? (fun r => r.url == url)) = none)
    (hfetch : env.fetch url = FetchResult.page data)
    (hsize : ¬ data.content.length > 30000)
    (hsum : env.summarize data.content = none) :
    add_url env (fuel + 1) url d ad s =
      if 0 < d then crawlLinks env fuel (d - 1) data.links (logFetch s url)
      else logFetch s url := by
  by_cases h0 : 0 < d <;>
    simp [add_url, addUrlBody, catch_errors, hdom, hmain, hfetch, hsize, hsum, h0,
      crawlLinks_body_eq, crawlLinks_match_eq]

theorem add_url_insert_eq (env : CrawlEnv) (fuel : Nat) (url : String) (d : Int)
    (ad : Bool) (s : St) (data : PageData) (summary : String)
    (hdom : strContains url hmcDomain = true)
    (hmain : (if ad then none else s.rows.find? (fun r => r.url == url)) = none)
    (hfetch : env.fetch url = FetchResult.page data)
    (hsize : ¬ data.content.length > 30000)
    (hsum : env.summarize data.content = some summary) :
    add_url env (fuel + 1) url d ad s =
      (if 0 < d then
        crawlLinks env fuel (d - 1) data.links
          (insertRow (logFetch s url)
            { title := data.title, content := data.content, url := url,
              publish_date := data.publish_date, crawl_date := data.crawl_date,
              summary := summary, depth := d })
      else
        insertRow (logFetch s url)
          { title := data.title, content := data.content, url := url,
            publish_date := data.publish_date, crawl_date := data.crawl_date,
            summary := summary, depth := d }) := by
  by_cases h0 : 0 < d <;>
    simp [add_url, addUrlBody, catch_errors, hdom, hmain, hfetch, hsize, hsum, h0,
      crawlLinks_body_eq, crawlLinks_match_eq]

/-- Claim C4: calling `add_url` on an already stored URL with duplicates not
allowed and a recursion budget at most the stored depth leaves the entire
store unchanged: same state, same row count, same stored row (and depth). -/
theorem add_url_stale_revisit_noop (env : CrawlEnv) (fuel : Nat) (url : String) (d : Int)
    (s : St) (row : Row) (hfind : s.rows.find? (fun r => r.url == url) = some row)
    (hd : d ≤ row.depth) :
    add_url env fuel url d false s = s ∧
    (add_url env fuel url d false s).rows.length = s.rows.length ∧
    (add_url env fuel url d false s).rows.find? (fun r => r.url == url) = some row := by
  have heq : add_url env fuel url d false s = s := by
    cases fuel with
    | zero => rfl
    | succ fuel => exact add_url_dupe_stale env fuel url d s row hfind (by omega)
  exact ⟨heq, by rw [heq], by rw [heq, hfind]⟩

/-- An environment in which every fetch fails benignly. -/
def idleEnv : CrawlEnv where
  fetch := fun _ => FetchResult.failed
  summarize := fun _ => none

/-- The empty store. -/
def st0 : St := { rows := [], fetched := [] }

/-- A row already stored at depth 2. -/
def storedRow : Row :=
  { title := ("t"), content := ("c"), url := ("https://www.hmc.edu/a"),
    publish_date := ("Unknown"), crawl_date := ("d"), summary := ("s"), depth := 2 }

/-- The store holding exactly `storedRow`. -/
def st1 : St := { rows := [storedRow], fetched := [] }

/-- Witness for `add_url_stale_revisit_noop`: revisiting the stored URL with
budget 1 against stored depth 2 changes nothing. -/
theorem add_url_stale_revisit_noop_witness :
    add_url idleEnv 3 (("https://www.hmc.edu/a")) 1 false st1 = st1 ∧
    (add_url idleEnv 3 (("https://www.hmc.edu/a")) 1 false st1).rows.length =
      st1.rows.length ∧
    (add_url idleEnv 3 (("https://www.hmc.edu/a")) 1 false st1).rows.find?
      (fun r => r.url == (("https://www.hmc.edu/a"))) = some storedRow :=
  add_url_stale_revisit_noop idleEnv 3 (("https://www.hmc.edu/a")) 1 st1 storedRow
    (by decide) (by decide)

/-- Claim C5: a URL outside the allowed domain is skipped silently for every
recursion budget: the state is unchanged, so nothing is fetched and no row is
stored for it. -/
theorem add_url_domain_gate (env : CrawlEnv) (fuel : Nat) (url : String) (d : Int)
    (ad : Bool) (s : St) (h : strContains url hmcDomain = false) :
    add_url env fuel url d ad s = s ∧
    (add_url env fuel url d ad s).fetched = s.fetched ∧
    hasRow (add_url env fuel url d ad s) url = hasRow s url := by
  have heq := add_url_out_of_domain env fuel url d ad s h
  exact ⟨heq, by rw [heq], by rw [heq]⟩

/-- Witness for `add_url_domain_gate` on a URL of a foreign domain. -/
theorem add_url_domain_gate_witness :
    add_url idleEnv 5 (("https://www.example.com/")) 3 false st0 = st0 ∧
    (add_url idleEnv 5 (("https://www.example.com/")) 3 false st0).fetched = st0.fetched ∧
    hasRow (add_url idleEnv 5 (("https://www.example.com/")) 3 false st0)
      (("https://www.example.com/")) = hasRow st0 (("https://www.example.com/")) :=
  add_url_domain_gate idleEnv 5 (("https://www.example.com/")) 3 false st0 (by decide)

/-- Store evolution order on row lists: every old row is still present at its
position with its url unchanged and its depth not decreased; freshly inserted
rows may follow. -/
def RowsLE : List Row → List Row → Prop
  | [], _ => True
  | _ :: _, [] => False
  | a :: as, b :: bs => b.url = a.url ∧ a.depth ≤ b.depth ∧ RowsLE as bs

theorem rowsLE_refl : ∀ rs, RowsLE rs rs
  | [] => trivial
  | _ :: as => ⟨rfl, le_refl _, rowsLE_refl as⟩

theorem rowsLE_trans : ∀ (rs1 rs2 rs3 : List Row),
    RowsLE rs1 rs2 → RowsLE rs2 rs3 → RowsLE rs1 rs3
  | [], _, _, _, _ => trivial
  | _ :: _, [], _, h12, _ => False.elim h12
  | _ :: _, _ :: _, [], _, h23 => False.elim h23
  | _ :: as, _ :: bs, _ :: cs, h12, h23 =>
    ⟨h23.1.trans h12.1, le_trans h12.2.1 h23.2.1, rowsLE_trans as bs cs h12.2.2 h23.2.2⟩

theorem rowsLE_append (ext : List Row) : ∀ (rs rs' : List Row),
    RowsLE rs rs' → RowsLE rs (rs' ++ ext)
  | [], _, _ => trivial
  | _ :: _, [], h => False.elim h
  | _ :: as, _ :: bs, h => ⟨h.1, h.2.1, rowsLE_append ext as bs h.2.2⟩

theorem rowsLE_updateDepthFirst (url : String) (d : Int) :
    ∀ (rs rs' : List Row) (row : Row), RowsLE rs rs' →
      rs.find? (fun r => r.url == url) = some row → row.depth ≤ d →
      RowsLE rs (updateDepthFirst url d rs')
  | [], _, _, _, _, _ => trivial
  | _ :: _, [], _, h, _, _ => False.elim h
  | a :: as, b :: bs, row, h, hfind, hd => by
    obtain ⟨hu, hdep, hrest⟩ := h
    by_cases ha : (a.url == url) = true
    · rw [@List.find?_cons_of_pos Row (fun r => r.url == url) a as ha] at hfind
      cases hfind
      unfold updateDepthFirst
      rw [if_pos (show (b.url == url) = true from by rw [hu]; exact ha)]
      exact ⟨by simpa using hu, hd, hrest⟩
    · rw [@List.find?_cons_of_neg Row (fun r => r.url == url) a as ha] at hfind
      unfold updateDepthFirst
      rw [if_neg (show ¬ (b.url == url) = true from by rw [hu]; exact ha)]
      exact ⟨hu, hdep, rowsLE_updateDepthFirst url d as bs row hrest hfind hd⟩

theorem rowsLE_find? (url : String) :
    ∀ (rs rs' : List Row) (row : Row), RowsLE rs rs' →
      rs.find? (fun r => r.url == url) = some row →
      ∃ b, rs'.find? (fun r => r.url == url) = some b ∧ row.depth ≤ b.depth
  | [], _, _, _, hfind => by simp at hfind
  | _ :: _, [], _, h, _ => False.elim h
  | a :: as, b :: bs, row, h, hfind => by
    obtain ⟨hu, hdep, hrest⟩ := h
    by_cases ha : (a.url == url) = true
    · rw [@List.find?_cons_of_pos Row (fun r => r.url == url) a as ha] at hfind
      cases hfind
      exact ⟨b, @List.find?_cons_of_pos Row (fun r => r.url == url) b bs
        (by show (b.url == url) = true; rw [hu]; exact ha), hdep⟩
    · rw [@List.find?_cons_of_neg Row (fun r => r.url == url) a as ha] at hfind
      obtain ⟨c, hc, hcd⟩ := rowsLE_find? url as bs row hrest hfind
      refine ⟨c, ?_, hcd⟩
      rw [@List.find?_cons_of_neg Row (fun r => r.url == url) b bs
        (show ¬ (b.url == url) = true from by rw [hu]; exact ha)]
      exact hc

theorem find?_updateDepthFirst (url : String) (d : Int) :
    ∀ (rs : List Row) (b : Row), rs.find? (fun r => r.url == url) = some b →
      (updateDepthFirst url d rs).find? (fun r => r.url == url) =
        some { b with depth := d }
  | [], _, h => by simp at h
  | a :: as, b, h => by
    by_cases ha : (a.url == url) = true
    · rw [@List.find?_cons_of_pos Row (fun r => r.url == url) a as ha] at h
      cases h
      unfold updateDepthFirst
      rw [if_pos ha]
      exact @List.find?_cons_of_pos Row (fun r => r.url == url) _ as (by simpa using ha)
    · rw [@List.find?_cons_of_neg Row (fun r => r.url == url) a as ha] at h
      unfold updateDepthFirst
      rw [if_neg ha]
      rw [@List.find?_cons_of_neg Row (fun r => r.url == url) a
        (updateDepthFirst url d as) ha]
      exact find?_updateDepthFirst url d as b h

theorem any_updateDepthFirst (url u0 : String) (d : Int) :
    ∀ rs : List Row, (updateDepthFirst url d rs).any (fun r => r.url == u0) =
      rs.any (fun r => r.url == u0)
  | [] => rfl
  | a :: as => by
    unfold updateDepthFirst
    by_cases ha : (a.url == url) = true
    · rw [if_pos ha]
      simp
    · rw [if_neg ha]
      simp only [List.any_cons]
      rw [any_updateDepthFirst url u0 d as]

theorem crawlLinks_preserve (env : CrawlEnv) (fuel : Nat) (d : Int) (P : St → Prop)
    (h : ∀ l st, P st → P (add_url env fuel l d false st)) :
    ∀ (links : List String) (s : St), P s → P (crawlLinks env fuel d links s)
  | [], _, hs => hs
  | l :: ls, s, hs => crawlLinks_preserve env fuel d P h ls _ (h l s hs)

theorem hasRow_insertRow (s : St) (r : Row) (u0 : String) (h : (r.url == u0) = false) :
    hasRow (insertRow s r) u0 = hasRow s u0 := by
  simp [hasRow, insertRow, h]

/-- Every `add_url` call evolves the store monotonically: old rows stay at
their position with their url unchanged and their depth not decreased. -/
theorem add_url_rowsLE (env : CrawlEnv) :
    ∀ (fuel : Nat) (u : String) (d : Int) (ad : Bool) (s : St),
      RowsLE s.rows (add_url env fuel u d ad s).rows := by
  intro fuel
  induction fuel with
  | zero =>
    intro u d ad s
    exact rowsLE_refl _
  | succ fuel ih =>
    intro u d ad s
    have hstep : ∀ (d' : Int) (l : String) (st : St),
        RowsLE s.rows st.rows → RowsLE s.rows (add_url env fuel l d' false st).rows :=
      fun d' l st hst => rowsLE_trans _ _ _ hst (ih l d' false st)
    cases hdom : strContains u hmcDomain with
    | false =>
      rw [add_url_out_of_domain env (fuel + 1) u d ad s hdom]
      exact rowsLE_refl _
    | true =>
      have hmainCase :
          (if ad then none else s.rows.find? (fun r => r.url == u)) = none →
            RowsLE s.rows (add_url env (fuel + 1) u d ad s).rows := by
        intro hmain
        cases hfetch : env.fetch u with
        | raised m =>
          rw [add_url_main_nofetch env fuel u d ad s hdom hmain (Or.inr ⟨m, hfetch⟩)]
          exact rowsLE_refl _
        | failed =>
          rw [add_url_main_nofetch env fuel u d ad s hdom hmain (Or.inl hfetch)]
          exact rowsLE_refl _
        | page data =>
          by_cases hsize : data.content.length > 30000
          · rw [add_url_size_gate_eq env fuel u d ad s data hdom hmain hfetch hsize]
            by_cases h0 : 0 < d
            · rw [if_pos h0]
              exact crawlLinks_preserve env fuel (d - 1)
                (fun st => RowsLE s.rows st.rows) (hstep (d - 1)) data.links
                (logFetch s u) (rowsLE_refl _)
            · rw [if_neg h0]
              exact rowsLE_refl _
          · cases hsum : env.summarize data.content with
            | none =>
              rw [add_url_sumfail_eq env fuel u d ad s data hdom hmain hfetch hsize hsum]
              by_cases h0 : 0 < d
              · rw [if_pos h0]
                exact crawlLinks_preserve env fuel (d - 1)
                  (fun st => RowsLE s.rows st.rows) (hstep (d - 1)) data.links
                  (logFetch s u) (rowsLE_refl _)
              · rw [if_neg h0]
                exact rowsLE_refl _
            | some sm =>
              rw [add_url_insert_eq env fuel u d ad s data sm hdom hmain hfetch hsize hsum]
              have hbase : RowsLE s.rows
                  (insertRow (logFetch s u)
                    { title := data.title, content := data.content, url := u,
                      publish_date := data.publish_date, crawl_date := data.crawl_date,
                      summary := sm, depth := d }).rows :=
                rowsLE_append _ _ _ (rowsLE_refl _)
              by_cases h0 : 0 < d
              · rw [if_pos h0]
                exact crawlLinks_preserve env fuel (d - 1)
                  (fun st => RowsLE s.rows st.rows) (hstep (d - 1)) data.links _ hbase
              · rw [if_neg h0]
                exact hbase
      cases had : ad with
      | true =>
        rw [had] at hmainCase
        exact hmainCase (by simp)
      | false =>
        rw [had] at hmainCase
        cases hfind : s.rows.find? (fun r => r.url == u) with
        | none => exact hmainCase (by simp [hfind])
        | some row =>
          by_cases hd : d > row.depth
          · cases hfetch : env.fetch u with
            | raised m =>
              rw [add_url_dupe_upgrade_nofetch env fuel u d s row hdom hfind hd
                (Or.inr ⟨m, hfetch⟩)]
              exact rowsLE_refl _
            | failed =>
              rw [add_url_dupe_upgrade_nofetch env fuel u d s row hdom hfind hd
                (Or.inl hfetch)]
              exact rowsLE_refl _
            | page data =>
              rw [add_url_dupe_upgrade env fuel u d s row data hdom hfind hd hfetch]
              have h2 : RowsLE s.rows
                  (crawlLinks env fuel (d - 1) data.links (logFetch s u)).rows :=
                crawlLinks_preserve env fuel (d - 1) (fun st => RowsLE s.rows st.rows)
                  (hstep (d - 1)) data.links (logFetch s u) (rowsLE_refl _)
              exact rowsLE_updateDepthFirst u d s.rows _ row h2 hfind (le_of_lt hd)
          · rw [add_url_dupe_stale env fuel u d s row hfind hd]
            exact rowsLE_refl _

/-- If every fetch of `u0` yields a page that is oversized or unsummarizable,
then no `add_url` call anywhere in the crawl ever creates a row for `u0`. -/
theorem add_url_no_new_row (env : CrawlEnv) (u0 : String)
    (hns : ∀ data, env.fetch u0 = FetchResult.page data →
      data.content.length > 30000 ∨ env.summarize data.content = none) :
    ∀ (fuel : Nat) (u : String) (d : Int) (ad : Bool) (s : St),
      hasRow s u0 = false → hasRow (add_url env fuel u d ad s) u0 = false := by
  intro fuel
  induction fuel with
  | zero =>
    intro u d ad s hs
    exact hs
  | succ fuel ih =>
    intro u d ad s hs
    have hstep : ∀ (d' : Int) (l : String) (st : St),
        hasRow st u0 = false → hasRow (add_url env fuel l d' false st) u0 = false :=
      fun d' l st hst => ih l d' false st hst
    cases hdom : strContains u hmcDomain with
    | false =>
      rw [add_url_out_of_domain env (fuel + 1) u d ad s hdom]
      exact hs
    | true =>
      have hmainCase :
          (if ad then none else s.rows.find? (fun r => r.url == u)) = none →
            hasRow (add_url env (fuel + 1) u d ad s) u0 = false := by
        intro hmain
        cases hfetch : env.fetch u with
        | raised m =>
          rw [add_url_main_nofetch env fuel u d ad s hdom hmain (Or.inr ⟨m, hfetch⟩)]
          exact hs
        | failed =>
          rw [add_url_main_nofetch env fuel u d ad s hdom hmain (Or.inl hfetch)]
          exact hs
        | page data =>
          by_cases hsize : data.content.length > 30000
          · rw [add_url_size_gate_eq env fuel u d ad s data hdom hmain hfetch hsize]
            by_cases h0 : 0 < d
            · rw [if_pos h0]
              exact crawlLinks_preserve env fuel (d - 1)
                (fun st => hasRow st u0 = false) (hstep (d - 1)) data.links
                (logFetch s u) hs
            · rw [if_neg h0]
              exact hs
          · cases hsum : env.summarize data.content with
            | none =>
              rw [add_url_sumfail_eq env fuel u d ad s data hdom hmain hfetch hsize hsum]
              by_cases h0 : 0 < d
              · rw [if_pos h0]
                exact crawlLinks_preserve env fuel (d - 1)
                  (fun st => hasRow st u0 = false) (hstep (d - 1)) data.links
                  (logFetch s u) hs
              · rw [if_neg h0]
                exact hs
            | some sm =>
              have hne : (u == u0) = false := by
                by_cases hu : u = u0
                · subst hu
                  rcases hns data hfetch with hbig | hnone
                  · exact absurd hbig hsize
                  · rw [hsum] at hnone
                    simp at hnone
                · simpa using hu
              rw [add_url_insert_eq env fuel u d ad s data sm hdom hmain hfetch hsize hsum]
              have hbase : hasRow
                  (insertRow (logFetch s u)
                    { title := data.title, content := data.content, url := u,
                      publish_date := data.publish_date, crawl_date := data.crawl_date,
                      summary := sm, depth := d }) u0 = false := by
                rw [hasRow_insertRow _ _ _ hne]
                exact hs
              by_cases h0 : 0 < d
              · rw [if_pos h0]
                exact crawlLinks_preserve env fuel (d - 1)
                  (fun st => hasRow st u0 = false) (hstep (d - 1)) data.links _ hbase
              · rw [if_neg h0]
                exact hbase
      cases had : ad with
      | true =>
        rw [had] at hmainCase
        exact hmainCase (by simp)
      | false =>
        rw [had] at hmainCase
        cases hfind : s.rows.find? (fun r => r.url == u) with
        | none => exact hmainCase (by simp [hfind])
        | some row =>
          by_cases hd : d > row.depth
          · cases hfetch : env.fetch u with
            | raised m =>
              rw [add_url_dupe_upgrade_nofetch env fuel u d s row hdom hfind hd
                (Or.inr ⟨m, hfetch⟩)]
              exact hs
            | failed =>
              rw [add_url_dupe_upgrade_nofetch env fuel u d s row hdom hfind hd
                (Or.inl hfetch)]
              exact hs
            | page data =>
              rw [add_url_dupe_upgrade env fuel u d s row data hdom hfind hd hfetch]
              have h2 : hasRow
                  (crawlLinks env fuel (d - 1) data.links (logFetch s u)) u0 = false :=
                crawlLinks_preserve env fuel (d - 1) (fun st => hasRow st u0 = false)
                  (hstep (d - 1)) data.links (logFetch s u) hs
              show (updateDepthFirst u d
                (crawlLinks env fuel (d - 1) data.links (logFetch s u)).rows).any
                  (fun r => r.url == u0) = false
              rw [any_updateDepthFirst]
              exact h2
          · rw [add_url_dupe_stale env fuel u d s row hfind hd]
            exact hs

/-- Claim C3: every `add_url` call leaves the stored rows in place with their
urls unchanged and their depths not decreased, and on the upgrade path — a
revisit whose budget strictly exceeds the stored depth — the stored depth of
that URL is rewritten exactly to the visiting budget. -/
theorem add_url_depth_monotone :
    (∀ (env : CrawlEnv) (fuel : Nat) (u : String) (d : Int) (ad : Bool) (s : St),
      RowsLE s.rows (add_url env fuel u d ad s).rows) ∧
    (∀ (env : CrawlEnv) (fuel : Nat) (url : String) (d : Int) (s : St) (row : Row)
      (data : PageData),
      s.rows.find? (fun r => r.url == url) = some row → row.depth < d →
      strContains url hmcDomain = true → env.fetch url = FetchResult.page data →
      ∃ r', (add_url env (fuel + 1) url d false s).rows.find? (fun r => r.url == url) =
          some r' ∧ r'.depth = d) := by
  refine ⟨fun env fuel u d ad s => add_url_rowsLE env fuel u d ad s, ?_⟩
  intro env fuel url d s row data hfind hd hdom hfetch
  rw [add_url_dupe_upgrade env fuel url d s row data hdom hfind hd hfetch]
  have h2 : RowsLE s.rows (crawlLinks env fuel (d - 1) data.links (logFetch s url)).rows :=
    crawlLinks_preserve env fuel (d - 1) (fun st => RowsLE s.rows st.rows)
      (fun l st hst => rowsLE_trans _ _ _ hst (add_url_rowsLE env fuel l (d - 1) false st))
      data.links (logFetch s url) (rowsLE_refl _)
  obtain ⟨b, hb, _⟩ := rowsLE_find? url s.rows _ row h2 hfind
  exact ⟨{ b with depth := d }, find?_updateDepthFirst url d _ b hb, rfl⟩

/-- A fetchable page with no links, used by the upgrade witness. -/
def upPage : PageData :=
  { title := ("t"), publish_date := ("Unknown"), crawl_date := ("d"),
    content := ("c"), links := [] }

/-- Environment whose every fetch returns `upPage`. -/
def upEnv : CrawlEnv where
  fetch := fun _ => FetchResult.page upPage
  summarize := fun _ => none

/-- Witness for `add_url_depth_monotone`: revisiting the URL stored at depth 2
with budget 5 keeps the store monotone and rewrites the depth to 5. -/
theorem add_url_depth_monotone_witness :
    RowsLE st1.rows (add_url upEnv 1 (("https://www.hmc.edu/a")) 5 false st1).rows ∧
    ∃ r', (add_url upEnv 1 (("https://www.hmc.edu/a")) 5 false st1).rows.find?
        (fun r => r.url == (("https://www.hmc.edu/a"))) = some r' ∧ r'.depth = 5 :=
  ⟨add_url_depth_monotone.1 upEnv 1 (("https://www.hmc.edu/a")) 5 false st1,
    add_url_depth_monotone.2 upEnv 0 (("https://www.hmc.edu/a")) 5 st1 storedRow upPage
      (by decide) (by decide) (by decide) rfl⟩

/-- A page whose content is exactly 30,000 characters. -/
def exactContent : String := String.mk (List.replicate 30000 ('a'))

/-- The crawled URL of the threshold-sized page. -/
def bigUrl : String := ("https://www.hmc.edu/big")

/-- Page data whose content sits exactly at the 30,000-character threshold. -/
def exactPage : PageData :=
  { title := ("t"), publish_date := ("Unknown"), crawl_date := ("d"),
    content := exactContent, links := [] }

/-- Environment that serves `exactPage` for every URL and always summarizes. -/
def gateEnv : CrawlEnv where
  fetch := fun _ => FetchResult.page exactPage
  summarize := fun _ => some (("sum"))

/-- Claim C2, counterexample: a page whose extracted content length is exactly
30,000 characters — "at" the threshold — is summarized and stored: the
source's gate is `len(content) > 30000`, so the row is inserted. -/
theorem size_gate_at_threshold_counterexample :
    exactPage.content.length = 30000 ∧
    hasRow (add_url gateEnv 1 bigUrl 0 false st0) bigUrl = true := by
  have hlen : exactPage.content.length = 30000 := by
    show (List.replicate 30000 ('a')).length = 30000
    rw [List.length_replicate]
  refine ⟨hlen, ?_⟩
  rw [add_url_insert_eq gateEnv 0 bigUrl 0 false st0 exactPage (("sum"))
    (by decide) rfl rfl (by rw [hlen]; omega) rfl]
  rw [if_neg (by omega)]
  rfl

/-- Claim C2, amended (the threshold is strict: only content strictly longer
than 30,000 characters is blocked): such a page is never summarized or stored
— no visit anywhere in the crawl creates a row for it — and when the
recursion budget is positive, the crawler still recurses into every
discovered link of the page with the budget decremented by 1. -/
theorem add_url_size_gate (env : CrawlEnv) (url : String) (data : PageData)
    (hfetch : env.fetch url = FetchResult.page data)
    (hbig : data.content.length > 30000) :
    (∀ (fuel : Nat) (u : String) (d : Int) (ad : Bool) (s : St),
      hasRow s url = false → hasRow (add_url env fuel u d ad s) url = false) ∧
    (∀ (fuel : Nat) (d : Int) (s : St) (ad : Bool),
      strContains url hmcDomain = true →
      (if ad then none else s.rows.find? (fun r => r.url == url)) = none → 0 < d →
      add_url env (fuel + 1) url d ad s =
        crawlLinks env fuel (d - 1) data.links (logFetch s url)) := by
  constructor
  · intro fuel u d ad s hs
    refine add_url_no_new_row env url ?_ fuel u d ad s hs
    intro data' hfetch'
    rw [hfetch] at hfetch'
    cases hfetch'
    exact Or.inl hbig
  · intro fuel d s ad hdom hmain h0
    rw [add_url_size_gate_eq env fuel url d ad s data hdom hmain hfetch hbig, if_pos h0]

/-- A page whose content is 30,001 characters, strictly over the threshold. -/
def bigContent : String := String.mk (List.replicate 30001 ('a'))

/-- Page data strictly over the 30,000-character threshold. -/
def bigPage : PageData :=
  { title := ("t"), publish_date := ("Unknown"), crawl_date := ("d"),
    content := bigContent, links := [] }

/-- Environment that serves the oversized `bigPage` for every URL. -/
def bigEnv : CrawlEnv where
  fetch := fun _ => FetchResult.page bigPage
  summarize := fun _ => some (("s"))

/-- Witness for `add_url_size_gate`: crawling the oversized page stores no row
for it, and with budget 1 the visit reduces to the fan-out over its links. -/
theorem add_url_size_gate_witness :
    hasRow (add_url bigEnv 2 bigUrl 1 false st0) bigUrl = false ∧
    add_url bigEnv 1 bigUrl 1 false st0 =
      crawlLinks bigEnv 0 (1 - 1) bigPage.links (logFetch st0 bigUrl) := by
  have hbig : bigPage.content.length > 30000 := by
    show 30000 < (List.replicate 30001 ('a')).length
    rw [List.length_replicate]
    omega
  have h := add_url_size_gate bigEnv bigUrl bigPage rfl hbig
  exact ⟨h.1 2 bigUrl 1 false st0 rfl, h.2 0 1 st0 false (by decide) rfl (by omega)⟩

/-- Claim C9: `add_url` never propagates an exception — whatever error the
body raises is swallowed by `_catch_errors`, which leaves the state as it was
at the raise point — and when summarization of a fetched page fails, the page
is never stored, while with a positive recursion budget the crawler still
recurses into the page's discovered links with the budget decremented by 1. -/
theorem add_url_error_policy :
    (∀ (env : CrawlEnv) (fuel : Nat) (u : String) (d : Int) (ad : Bool) (s : St)
      (msg : String) (t : St),
      addUrlBody env fuel u d ad s = Except.error (msg, t) →
      add_url env fuel u d ad s = t) ∧
    (∀ (env : CrawlEnv) (url : String) (data : PageData),
      env.fetch url = FetchResult.page data →
      env.summarize data.content = none →
      ∀ (fuel : Nat) (u : String) (d : Int) (ad : Bool) (s : St),
        hasRow s url = false → hasRow (add_url env fuel u d ad s) url = false) ∧
    (∀ (env : CrawlEnv) (fuel : Nat) (url : String) (d : Int) (ad : Bool) (s : St)
      (data : PageData),
      strContains url hmcDomain = true →
      (if ad then none else s.rows.find? (fun r => r.url == url)) = none →
      env.fetch url = FetchResult.page data →
      ¬ data.content.length > 30000 →
      env.summarize data.content = none →
      add_url env (fuel + 1) url d ad s =
        if 0 < d then crawlLinks env fuel (d - 1) data.links (logFetch s url)
        else logFetch s url) := by
  refine ⟨?_, ?_, ?_⟩
  · intro env fuel u d ad s msg t h
    simp [add_url, catch_errors, h]
  · intro env url data hfetch hsum fuel u d ad s hs
    refine add_url_no_new_row env url ?_ fuel u d ad s hs
    intro data' hfetch'
    rw [hfetch] at hfetch'
    cases hfetch'
    exact Or.inr hsum
  · intro env fuel url d ad s data hdom hmain hfetch hsize hsum
    exact add_url_sumfail_eq env fuel url d ad s data hdom hmain hfetch hsize hsum

/-- Environment whose fetch raises an exception that escapes
`fetch_page_data`. -/
def raiseEnv : CrawlEnv where
  fetch := fun _ => FetchResult.raised (("boom"))
  summarize := fun _ => none

/-- A small, fetchable, link-free page. -/
def smallPage : PageData :=
  { title := ("t"), publish_date := ("Unknown"), crawl_date := ("d"),
    content := ("c"), links := [] }

/-- Environment that serves `smallPage` but whose summarizer always fails. -/
def failEnv : CrawlEnv where
  fetch := fun _ => FetchResult.page smallPage
  summarize := fun _ => none

/-- Witness for `add_url_error_policy`: the raised fetch error is swallowed,
the summarization failure stores nothing, and with budget 0 the visit stops
after logging the fetch. -/
theorem add_url_error_policy_witness :
    add_url raiseEnv 1 (("https://www.hmc.edu/x")) 0 false st0 =
      logFetch st0 (("https://www.hmc.edu/x")) ∧
    hasRow (add_url failEnv 1 (("https://www.hmc.edu/x")) 0 false st0)
      (("https://www.hmc.edu/x")) = false ∧
    add_url failEnv 1 (("https://www.hmc.edu/x")) 0 false st0 =
      logFetch st0 (("https://www.hmc.edu/x")) := by
  refine ⟨?_, ?_, ?_⟩
  · exact add_url_error_policy.1 raiseEnv 1 (("https://www.hmc.edu/x")) 0 false st0
      (("boom")) (logFetch st0 (("https://www.hmc.edu/x"))) rfl
  · exact add_url_error_policy.2.1 failEnv (("https://www.hmc.edu/x")) smallPage rfl rfl
      1 (("https://www.hmc.edu/x")) 0 false st0 rfl
  · have h := add_url_error_policy.2.2 failEnv 0 (("https://www.hmc.edu/x")) 0 false st0
      smallPage (by decide) rfl rfl (by decide) rfl
    simpa using h

end RagCourse
